import Mathlib

/-
Verification of the merge-counts matrix-merge core (src/mergecounts/__main__.py).

The embedding models a pandas DataFrame as produced by `read_counts`: a table
indexed by gene name (`keys`, the "Gene Name" index) with named value columns
(`cols`, one `(sample name, cells)` pair per column; a cell is `none` for a
missing value, i.e. pandas NaN).  `DataFrame.merge(..., how="outer",
left_index=True, right_index=True)` is modelled by `Table.merge`: the result is
indexed by the sorted union of the two key sets (pandas sorts the keys of an
outer join lexicographically), holds the left table's columns followed by the
right table's columns, each reindexed to the union (absent keys become missing),
and overlapping column labels receive the pandas default suffixes "_x"/"_y".
Python's `sorted` on strings (lexicographic on code points) is modelled by
`List.insertionSort strLe`; any correct sort agrees with it on strings because
the order is total and antisymmetric.
-/

namespace MergeCounts

/-- A cell of a counts table; `none` models a missing value (pandas NaN). -/
abbrev Cell := Option Int

/-- A keyed table: the DataFrame shape produced by `read_counts` and consumed by
the merge algorithms.  `keys` is the "Gene Name" index, `cols` the named value
columns in order. -/
structure Table where
  keys : List String
  cols : List (String × List Cell)
deriving DecidableEq, Repr

/-- The column labels of a table, in order (pandas `df.columns`). -/
def colNames (t : Table) : List String := t.cols.map Prod.fst

/-- The `(rows, columns)` pair, pandas `df.shape`. -/
def Table.shape (t : Table) : Nat × Nat := (t.keys.length, t.cols.length)

/-- Well-formedness of a loaded table: unique keys (the data-model invariant for
count files) and every column aligned with the index. -/
def WF (t : Table) : Prop :=
  t.keys.Nodup ∧ ∀ nc ∈ t.cols, nc.2.length = t.keys.length

instance (t : Table) : Decidable (WF t) := by unfold WF; infer_instance

/-- Lexicographic comparison of char lists by code point, as Python compares
strings. -/
def charListLe : List Char → List Char → Bool
  | [], _ => true
  | _ :: _, [] => false
  | a :: as, b :: bs =>
    if a.toNat < b.toNat then true
    else if b.toNat < a.toNat then false
    else charListLe as bs

/-- Python's `<=` on strings: lexicographic on code points. -/
def strLe (a b : String) : Prop := charListLe a.data b.data = true

instance : DecidableRel strLe := fun a b => by unfold strLe; infer_instance

/-- Python's `sorted` on a list of strings. -/
def sortNames (l : List String) : List String := List.insertionSort strLe l

/-- The index of a pandas outer merge: the sorted union of the two key sets
(`pd.merge(..., how="outer")` sorts the join keys lexicographically). -/
def sortDedup (l : List String) : List String := (List.insertionSort strLe l).dedup

/-- Look a key up in a column laid out along `keys`; `none` both for a stored
missing value and for an absent key (an outer join fills absent keys with NaN). -/
def lookupRow (keys : List String) (vals : List Cell) (k : String) : Cell :=
  ((keys.zip vals).lookup k).join

/-- The value of cell `(k, c)` of a table: the first column labelled `c`, looked
up at key `k`; `none` when the column or the key is absent or the value missing. -/
def cellVal (t : Table) (k c : String) : Cell :=
  match t.cols.find? (fun nc => nc.1 == c) with
  | some nc => lookupRow t.keys nc.2 k
  | none => none

/-- The pandas suffixing of overlapping column labels in a merge: a label also
present in `other` receives the suffix `sfx` ("_x" for the left operand, "_y"
for the right one); all other labels are kept. -/
def renameShared (sfx : String) (other : List String) (cols : List (String × List Cell)) :
    List (String × List Cell) :=
  cols.map (fun nc => (if nc.1 ∈ other then nc.1 ++ sfx else nc.1, nc.2))

/-- `one.merge(two, how="outer", left_index=True, right_index=True)`: index =
sorted union of the key sets; columns = left columns then right columns, each
reindexed to the union index (absent keys become missing); overlapping column
labels are suffixed "_x"/"_y". -/
def Table.merge (a b : Table) : Table :=
  let ks := sortDedup (a.keys ++ b.keys)
  { keys := ks
    cols :=
      (renameShared "_x" (colNames b) a.cols).map (fun nc => (nc.1, ks.map (lookupRow a.keys nc.2)))
        ++ (renameShared "_y" (colNames a) b.cols).map
          (fun nc => (nc.1, ks.map (lookupRow b.keys nc.2))) }

/-- The statement `result.columns = sorted(result.columns)` at the end of
`join_dataframes_recursively`: assigning to `df.columns` RELABELS the columns in
place (the i-th data column receives the i-th smallest name); it does not move
any data. -/
def relabelSorted (t : Table) : Table :=
  { keys := t.keys, cols := (sortNames (colNames t)).zip (t.cols.map Prod.snd) }

/-- The failure modes of the merge core. -/
inductive MergeError where
  /-- `ValueError("Must contain at least one count file to merge.")` -/
  | inputEmpty : MergeError
  /-- `raise_error(f"Output matrix shape ({result.shape}) does not match expected
  shape ({expected_result_shape})!")`: a RuntimeError carrying the actual and the
  expected shape. -/
  | shapeMismatch (actual expected : Nat × Nat) : MergeError
  /-- `raise_error("Math was incorrect!")` -/
  | mathIncorrect : MergeError
  /-- `AssertionError` from `pd.testing.assert_frame_equal`. -/
  | assertionFailed : MergeError
deriving DecidableEq, Repr

/-- One pass of the inner `while len(dfs) > 0` loop of
`join_dataframes_recursively`: consume the working list two at a time, merge
each adjacent pair, carry an odd leftover forward unmerged.  Returns the next
working list together with the number of merge calls (`one.merge(two, ...)`)
and the number of `pbar.update()` calls (one per append, including the
carried-forward leftover). -/
def pairupC : List Table → List Table × Nat × Nat
  | [] => ([], 0, 0)
  | [one] => ([one], 0, 1)
  | one :: two :: rest =>
    let r := pairupC rest
    (one.merge two :: r.1, r.2.1 + 1, r.2.2 + 1)

/-- The inner loop again, now tracking the state of the caller's list object:
`dfs.pop(0)` removes elements from the list the caller passed in, so the first
component is what remains of that list (always emptied) while the second is the
accumulated `merged_dfs`. -/
def innerLoopS : List Table → List Table → List Table × List Table
  | [], acc => ([], acc)
  | [one], acc => ([], acc ++ [one])
  | one :: two :: rest, acc => innerLoopS rest (acc ++ [one.merge two])

/-- The outer `while len(dfs) > 1` loop, with explicit fuel to keep the
recursion structural; each round at least halves a list of length ≥ 2, so
`dfs.length` rounds always suffice (`roundsCFuel_fuel_irrel` below).  Returns
the final working list, the total merge count and the total update count. -/
def roundsCFuel : Nat → List Table → List Table × Nat × Nat
  | 0, dfs => (dfs, 0, 0)
  | fuel + 1, dfs =>
    if dfs.length ≤ 1 then (dfs, 0, 0)
    else
      let p := pairupC dfs
      let r := roundsCFuel fuel p.1
      (r.1, p.2.1 + r.2.1, p.2.2 + r.2.2)

/-- The outer pairing loop of `join_dataframes_recursively`. -/
def roundsC (dfs : List Table) : List Table × Nat × Nat := roundsCFuel dfs.length dfs

/-- The working list left when the outer pairing loop exits. -/
def roundsRes (dfs : List Table) : List Table := (roundsC dfs).1

/-- The `while num_dfs > 1: amt = ceil(num_dfs / 2); ...` pre-computation of
`num_iterations_needed`, with the same structural fuel (for an integer `n`,
`math.ceil(n / 2) = (n + 1) / 2`). -/
def numIterationsNeededFuel : Nat → Nat → Nat
  | 0, _ => 0
  | fuel + 1, n => if n ≤ 1 then 0 else (n + 1) / 2 + numIterationsNeededFuel fuel ((n + 1) / 2)

/-- `num_iterations_needed` as computed before the pairing rounds run. -/
def numIterationsNeeded (n : Nat) : Nat := numIterationsNeededFuel n n

/-- `join_dataframes_sequentially`: seed with the first table, fold the
remaining tables through the outer merge, then check the result's shape against
`(dfs[0].shape[0], len(dfs))`. -/
def join_dataframes_sequentially (dfs : List Table) : Except MergeError Table :=
  match dfs with
  | [] => .error .inputEmpty
  | d :: rest =>
    let result := rest.foldl Table.merge d
    let expected := (d.keys.length, (d :: rest).length)
    if result.shape = expected then .ok result
    else .error (.shapeMismatch result.shape expected)

/-- `join_dataframes_recursively`: run the pairing rounds; fail with "Math was
incorrect!" unless exactly one table is left; relabel its columns with their
sorted names (`result.columns = sorted(result.columns)`); then check the shape
against `(dfs[0].shape[0], len(dfs))`. -/
def join_dataframes_recursively (dfs : List Table) : Except MergeError Table :=
  match dfs with
  | [] => .error .inputEmpty
  | d :: rest =>
    match roundsRes (d :: rest) with
    | [u] =>
      let result := relabelSorted u
      let expected := (d.keys.length, (d :: rest).length)
      if result.shape = expected then .ok result
      else .error (.shapeMismatch result.shape expected)
    | _ => .error .mathIncorrect

/-- `pd.testing.assert_frame_equal` with its defaults: the two frames must agree
on the index (values and order), on the column labels (values and order) and on
every cell (missing equal to missing). -/
def framesEqual (t1 t2 : Table) : Prop := t1.keys = t2.keys ∧ t1.cols = t2.cols

instance (t1 t2 : Table) : Decidable (framesEqual t1 t2) := by unfold framesEqual; infer_instance

/-- `concordance_test`: run the sequential reducer, then the recursive reducer,
then assert frame equality.  For a single input table the sequential result is
the very object `dfs[0]`, which the recursive reducer then relabels in place, so
the assertion compares the relabelled frame with itself; the `sFinal` adjustment
models that aliasing. -/
def concordance_test (dfs : List Table) : Except MergeError Unit := do
  let s ← join_dataframes_sequentially dfs
  let r ← join_dataframes_recursively dfs
  let sFinal := if dfs.length = 1 then relabelSorted s else s
  if framesEqual sFinal r then .ok () else .error .assertionFailed

/-- The content of the caller's list object after `join_dataframes_recursively`
returns: with two or more tables the first pairing round consumes the caller's
list via `dfs.pop(0)` (later rounds rebind the local name `dfs` to fresh lists);
with exactly one table no round runs, but `result = dfs[0]` aliases the single
element, whose columns the reducer reassigns in place. -/
def callerListAfterRecursive : List Table → List Table
  | [] => []
  | [t] => [relabelSorted t]
  | one :: two :: rest => (innerLoopS (one :: two :: rest) []).1

/-- Content equality of two tables: the same key set, the same column-label set,
and the same value at every (key, column) pair — the order-insensitive
"(key, column) → value content" of the specification. -/
def contentEq (t1 t2 : Table) : Prop :=
  (∀ k ∈ t1.keys, k ∈ t2.keys) ∧ (∀ k ∈ t2.keys, k ∈ t1.keys) ∧
    (∀ c ∈ colNames t1, c ∈ colNames t2) ∧ (∀ c ∈ colNames t2, c ∈ colNames t1) ∧
    (∀ k ∈ t1.keys, ∀ c ∈ colNames t1, cellVal t1 k c = cellVal t2 k c)

instance (t1 t2 : Table) : Decidable (contentEq t1 t2) := by unfold contentEq; infer_instance

/-- Column-label disjointness of two tables (no pandas suffixing fires). -/
def DisjNames (a b : Table) : Prop := ∀ n ∈ colNames a, n ∉ colNames b

instance (a b : Table) : Decidable (DisjNames a b) := by unfold DisjNames; infer_instance

/-- All twelve ways to merge three tables: each of the six orders under each of
the two bracketings. -/
def mergeTrees (a b c : Table) : List Table :=
  [(a.merge b).merge c, a.merge (b.merge c),
    (a.merge c).merge b, a.merge (c.merge b),
    (b.merge a).merge c, b.merge (a.merge c),
    (b.merge c).merge a, b.merge (c.merge a),
    (c.merge a).merge b, c.merge (a.merge b),
    (c.merge b).merge a, c.merge (b.merge a)]

/-- Grouping of the input tables described by one pairing round: adjacent blocks
of inputs are combined exactly as `pairupC` combines the corresponding working
tables. -/
def pairBlocks : List (List Table) → List (List Table)
  | [] => []
  | [b] => [b]
  | b₁ :: b₂ :: rest => (b₁ ++ b₂) :: pairBlocks rest

/-- A table is the outer-join combination of a list of tables: its keys are
exactly the keys occurring in the list (without duplicates), and its columns are
the lists' columns in order, each reindexed to the combined key list.  Every
way of merging the list that the two reducers perform produces such a table. -/
def IsMergeOf (u : Table) (l : List Table) : Prop :=
  u.keys.Nodup ∧ (∀ k, k ∈ u.keys ↔ ∃ t ∈ l, k ∈ t.keys) ∧
    u.cols = l.flatMap
      (fun t => t.cols.map (fun nc => (nc.1, u.keys.map (fun k => lookupRow t.keys nc.2 k))))

/-- Concrete tables used to instantiate the claims: single-gene tables whose
sample names are not in sorted order. -/
def tA : Table := ⟨["g"], [("a", [some 2])]⟩

def tB : Table := ⟨["g"], [("b", [some 1])]⟩

def tA7 : Table := ⟨["g"], [("a", [some 7])]⟩

def tB7 : Table := ⟨["g"], [("b", [some 7])]⟩

/-- A two-gene table; `tG1` below covers a strict subset of its keys. -/
def tG12 : Table := ⟨["g1", "g2"], [("s1", [some 1, some 2])]⟩

def tG1 : Table := ⟨["g1"], [("s2", [some 5])]⟩

/-- Two tables sharing the column label "s" (the pandas suffixing case). -/
def tS1 : Table := ⟨["g"], [("s", [some 1])]⟩

def tS2 : Table := ⟨["g"], [("s", [some 2])]⟩

/-- The specification's outer-join scenario: genes {g1,g2} and {g2,g3}. -/
def wA : Table := ⟨["g1", "g2"], [("a", [some 1, some 2])]⟩

def wB : Table := ⟨["g2", "g3"], [("b", [some 3, some 4])]⟩

def wC : Table := ⟨["g1", "g3"], [("c", [some 5, some 6])]⟩

/-- A third single-gene table for the merge-count scenario. -/
def tC : Table := ⟨["g"], [("c", [some 3])]⟩

theorem charListLe_total (x y : List Char) : charListLe x y = true ∨ charListLe y x = true := by
  induction x generalizing y with
  | nil => left; rfl
  | cons a as ih =>
    cases y with
    | nil => right; rfl
    | cons b bs =>
      by_cases h1 : a.toNat < b.toNat
      · left; simp [charListLe, h1]
      · by_cases h2 : b.toNat < a.toNat
        · right; simp [charListLe, h2]
        · rcases ih bs with h | h
          · left; simp [charListLe, h1, h2, h]
          · right; simp [charListLe, h1, h2, h]

theorem charListLe_trans {x y z : List Char} (hxy : charListLe x y = true)
    (hyz : charListLe y z = true) : charListLe x z = true := by
  induction x generalizing y z with
  | nil => rfl
  | cons a as ih =>
    cases y with
    | nil => simp [charListLe] at hxy
    | cons b bs =>
      cases z with
      | nil => simp [charListLe] at hyz
      | cons c cs =>
        simp only [charListLe] at hxy hyz ⊢
        by_cases hba : b.toNat < a.toNat
        · simp [Nat.lt_asymm hba, hba] at hxy
        · by_cases hcb : c.toNat < b.toNat
          · simp [Nat.lt_asymm hcb, hcb] at hyz
          · by_cases hab : a.toNat < b.toNat
            · have hac : a.toNat < c.toNat := by omega
              simp [hac]
            · by_cases hbc : b.toNat < c.toNat
              · have hac : a.toNat < c.toNat := by omega
                simp [hac]
              · have h1 : ¬ a.toNat < c.toNat := by omega
                have h2 : ¬ c.toNat < a.toNat := by omega
                simp only [hab, hba, if_false, if_true] at hxy
                simp only [hbc, hcb, if_false, if_true] at hyz
                simp [h1, h2, ih hxy hyz]

theorem charListLe_antisymm {x y : List Char} (hxy : charListLe x y = true)
    (hyx : charListLe y x = true) : x = y := by
  induction x generalizing y with
  | nil => cases y with
    | nil => rfl
    | cons b bs => simp [charListLe] at hyx
  | cons a as ih =>
    cases y with
    | nil => simp [charListLe] at hxy
    | cons b bs =>
      simp only [charListLe] at hxy hyx
      by_cases hab : a.toNat < b.toNat
      · simp [hab, Nat.lt_asymm hab] at hyx
      · by_cases hba : b.toNat < a.toNat
        · simp [hba, hab] at hxy
        · have hval : a = b := by
            apply Char.ext
            apply UInt32.ext
            simp only [Char.toNat] at hab hba
            omega
          simp [hab, hba] at hxy hyx
          exact hval ▸ congrArg (a :: ·) (ih hxy hyx)

instance : IsTotal String strLe :=
  ⟨fun a b => charListLe_total a.data b.data⟩

instance : IsTrans String strLe :=
  ⟨fun _ _ _ h1 h2 => charListLe_trans h1 h2⟩

instance : IsAntisymm String strLe :=
  ⟨fun _ _ h1 h2 => String.ext (charListLe_antisymm h1 h2)⟩

theorem mem_sortDedup {s : String} {l : List String} : s ∈ sortDedup l ↔ s ∈ l := by
  unfold sortDedup
  rw [List.mem_dedup]
  exact (List.perm_insertionSort strLe l).mem_iff

theorem nodup_sortDedup (l : List String) : (sortDedup l).Nodup := List.nodup_dedup _

theorem sorted_sortDedup (l : List String) : List.Sorted strLe (sortDedup l) :=
  List.Pairwise.sublist (List.dedup_sublist _) (List.sorted_insertionSort strLe l)

theorem sortDedup_ext {l₁ l₂ : List String} (h : ∀ s, s ∈ l₁ ↔ s ∈ l₂) :
    sortDedup l₁ = sortDedup l₂ :=
  List.eq_of_perm_of_sorted
    ((List.perm_ext_iff_of_nodup (nodup_sortDedup _) (nodup_sortDedup _)).2
      (fun a => by rw [mem_sortDedup, mem_sortDedup]; exact h a))
    (sorted_sortDedup _) (sorted_sortDedup _)

theorem lookupRow_of_not_mem {keys : List String} {vals : List Cell} {k : String}
    (h : k ∉ keys) : lookupRow keys vals k = none := by
  unfold lookupRow
  induction keys generalizing vals with
  | nil => rfl
  | cons a as ih =>
    cases vals with
    | nil => rfl
    | cons v vs =>
      have hka : (k == a) = false := by
        simp only [beq_eq_false_iff_ne, ne_eq]
        intro hh
        exact h (hh ▸ List.mem_cons_self a as)
      rw [List.zip_cons_cons, List.lookup_cons]
      simp only [hka]
      exact ih (fun hm => h (List.mem_cons_of_mem _ hm))

theorem lookupRow_map (keys : List String) (f : String → Cell) (k : String) :
    lookupRow keys (keys.map f) k = if k ∈ keys then f k else none := by
  induction keys with
  | nil => simp [lookupRow]
  | cons a as ih =>
    by_cases hka : k = a
    · subst hka
      simp [lookupRow, List.lookup_cons]
    · have hb : (k == a) = false := by simpa using hka
      unfold lookupRow at ih ⊢
      rw [List.map_cons, List.zip_cons_cons, List.lookup_cons]
      simp only [hb, List.mem_cons, hka, false_or]
      exact ih

theorem lookupRow_cons_ne {a k : String} {as : List String} {v : Cell} {vs : List Cell}
    (h : k ≠ a) : lookupRow (a :: as) (v :: vs) k = lookupRow as vs k := by
  have hb : (k == a) = false := by simpa using h
  unfold lookupRow
  rw [List.zip_cons_cons, List.lookup_cons]
  simp [hb]

theorem map_lookupRow_self {keys : List String} {vals : List Cell} (hnd : keys.Nodup)
    (hlen : vals.length = keys.length) : keys.map (fun k => lookupRow keys vals k) = vals := by
  induction keys generalizing vals with
  | nil => cases vals with
    | nil => rfl
    | cons v vs => simp at hlen
  | cons a as ih =>
    cases vals with
    | nil => simp at hlen
    | cons v vs =>
      rw [List.map_cons]
      have hhead : lookupRow (a :: as) (v :: vs) a = v := by
        unfold lookupRow
        rw [List.zip_cons_cons, List.lookup_cons]
        simp
      have htail : as.map (fun k => lookupRow (a :: as) (v :: vs) k)
          = as.map (fun k => lookupRow as vs k) := by
        apply List.map_congr_left
        intro k hk
        exact lookupRow_cons_ne (fun he => (List.nodup_cons.1 hnd).1 (he ▸ hk))
      rw [hhead, htail, ih (List.nodup_cons.1 hnd).2 (by simpa using hlen)]

theorem disjNames_symm {a b : Table} (h : DisjNames a b) : DisjNames b a :=
  fun n hn hna => h n hna hn

theorem renameShared_of_disjoint {sfx : String} {other : List String}
    {cols : List (String × List Cell)} (h : ∀ n ∈ cols.map Prod.fst, n ∉ other) :
    renameShared sfx other cols = cols := by
  unfold renameShared
  conv_rhs => rw [← List.map_id cols]
  apply List.map_congr_left
  intro nc hnc
  have hn : nc.1 ∉ other := h nc.1 (List.mem_map_of_mem _ hnc)
  simp [hn]

theorem keys_merge (a b : Table) : (a.merge b).keys = sortDedup (a.keys ++ b.keys) := rfl

theorem mem_keys_merge {a b : Table} {k : String} :
    k ∈ (a.merge b).keys ↔ k ∈ a.keys ∨ k ∈ b.keys := by
  rw [keys_merge, mem_sortDedup, List.mem_append]

theorem cols_merge {a b : Table} (hd : DisjNames a b) :
    (a.merge b).cols =
      a.cols.map (fun nc => (nc.1, (a.merge b).keys.map (fun k => lookupRow a.keys nc.2 k)))
        ++ b.cols.map (fun nc => (nc.1, (a.merge b).keys.map (fun k => lookupRow b.keys nc.2 k))) := by
  have hd' : ∀ n ∈ a.cols.map Prod.fst, n ∉ colNames b := hd
  have hd'' : ∀ n ∈ b.cols.map Prod.fst, n ∉ colNames a := disjNames_symm hd
  simp only [Table.merge]
  rw [renameShared_of_disjoint hd', renameShared_of_disjoint hd'']

theorem colNames_merge {a b : Table} (hd : DisjNames a b) :
    colNames (a.merge b) = colNames a ++ colNames b := by
  unfold colNames
  rw [cols_merge hd]
  simp only [List.map_append, List.map_map]
  congr 1

theorem cellVal_of_not_mem_colNames {t : Table} {k c : String} (h : c ∉ colNames t) :
    cellVal t k c = none := by
  unfold cellVal
  have hf : t.cols.find? (fun nc => nc.1 == c) = none := by
    rw [List.find?_eq_none]
    intro nc hnc
    simp only [beq_iff_eq]
    intro he
    exact h (he ▸ List.mem_map_of_mem Prod.fst hnc)
  rw [hf]

theorem cellVal_of_not_mem_keys {t : Table} {k c : String} (h : k ∉ t.keys) :
    cellVal t k c = none := by
  unfold cellVal
  cases hf : t.cols.find? (fun nc => nc.1 == c) with
  | none => rfl
  | some nc => exact lookupRow_of_not_mem h

theorem find?_map_mkcol (keysA ks : List String) (cols : List (String × List Cell))
    (c : String) :
    (cols.map (fun nc => (nc.1, ks.map (fun k => lookupRow keysA nc.2 k)))).find?
        (fun nc => nc.1 == c)
      = Option.map (fun nc => (nc.1, ks.map (fun k => lookupRow keysA nc.2 k)))
          (cols.find? (fun nc => nc.1 == c)) := by
  rw [List.find?_map]
  rfl

theorem find?_eq_some_of_mem_colNames {t : Table} {c : String} (h : c ∈ colNames t) :
    ∃ nc, t.cols.find? (fun nc => nc.1 == c) = some nc ∧ nc.1 = c := by
  cases hf : t.cols.find? (fun nc => nc.1 == c) with
  | none =>
    exfalso
    rcases List.mem_map.1 h with ⟨nc, hnc, hfst⟩
    exact absurd (by simpa using hfst) (List.find?_eq_none.1 hf nc hnc)
  | some nc =>
    exact ⟨nc, rfl, by simpa using List.find?_some hf⟩

theorem find?_eq_none_of_not_mem_colNames {t : Table} {c : String} (h : c ∉ colNames t) :
    t.cols.find? (fun nc => nc.1 == c) = none := by
  rw [List.find?_eq_none]
  intro nc hnc
  simp only [beq_iff_eq]
  intro he
  exact h (he ▸ List.mem_map_of_mem Prod.fst hnc)

theorem cellVal_merge {a b : Table} (hd : DisjNames a b) (k c : String) :
    cellVal (a.merge b) k c = if c ∈ colNames a then cellVal a k c else cellVal b k c := by
  have hks : ∀ k, k ∈ (a.merge b).keys ↔ k ∈ a.keys ∨ k ∈ b.keys := fun _ => mem_keys_merge
  unfold cellVal
  rw [cols_merge hd, List.find?_append, find?_map_mkcol, find?_map_mkcol]
  by_cases hca : c ∈ colNames a
  · rcases find?_eq_some_of_mem_colNames hca with ⟨nc₀, hf, _⟩
    rw [hf, if_pos hca]
    show lookupRow (a.merge b).keys
        ((a.merge b).keys.map (fun k => lookupRow a.keys nc₀.2 k)) k
      = lookupRow a.keys nc₀.2 k
    rw [lookupRow_map]
    by_cases hk : k ∈ (a.merge b).keys
    · rw [if_pos hk]
    · rw [if_neg hk, lookupRow_of_not_mem (fun hmem => hk ((hks k).2 (Or.inl hmem)))]
  · rw [find?_eq_none_of_not_mem_colNames hca, if_neg hca]
    cases hfb : b.cols.find? (fun nc => nc.1 == c) with
    | none => rfl
    | some nc₀ =>
      show lookupRow (a.merge b).keys
          ((a.merge b).keys.map (fun k => lookupRow b.keys nc₀.2 k)) k
        = lookupRow b.keys nc₀.2 k
      rw [lookupRow_map]
      by_cases hk : k ∈ (a.merge b).keys
      · rw [if_pos hk]
      · rw [if_neg hk, lookupRow_of_not_mem (fun hmem => hk ((hks k).2 (Or.inr hmem)))]

theorem contentEq_of {t1 t2 : Table} (hk : ∀ k, k ∈ t1.keys ↔ k ∈ t2.keys)
    (hc : ∀ c, c ∈ colNames t1 ↔ c ∈ colNames t2)
    (hv : ∀ k c, cellVal t1 k c = cellVal t2 k c) : contentEq t1 t2 :=
  ⟨fun k hk' => (hk k).1 hk', fun k hk' => (hk k).2 hk',
    fun c hc' => (hc c).1 hc', fun c hc' => (hc c).2 hc',
    fun k _ c _ => hv k c⟩

theorem contentEq.keys_iff {t1 t2 : Table} (h : contentEq t1 t2) (k : String) :
    k ∈ t1.keys ↔ k ∈ t2.keys :=
  ⟨fun hh => h.1 k hh, fun hh => h.2.1 k hh⟩

theorem contentEq.names_iff {t1 t2 : Table} (h : contentEq t1 t2) (c : String) :
    c ∈ colNames t1 ↔ c ∈ colNames t2 :=
  ⟨fun hh => h.2.2.1 c hh, fun hh => h.2.2.2.1 c hh⟩

theorem contentEq.cell {t1 t2 : Table} (h : contentEq t1 t2) (k c : String) :
    cellVal t1 k c = cellVal t2 k c := by
  by_cases hk : k ∈ t1.keys
  · by_cases hc : c ∈ colNames t1
    · exact h.2.2.2.2 k hk c hc
    · rw [cellVal_of_not_mem_colNames hc,
        cellVal_of_not_mem_colNames (fun hc2 => hc ((h.names_iff c).2 hc2))]
  · rw [cellVal_of_not_mem_keys hk,
      cellVal_of_not_mem_keys (fun hk2 => hk ((h.keys_iff k).2 hk2))]

theorem contentEq_refl (t : Table) : contentEq t t :=
  contentEq_of (fun _ => Iff.rfl) (fun _ => Iff.rfl) (fun _ _ => rfl)

theorem contentEq_symm {t1 t2 : Table} (h : contentEq t1 t2) : contentEq t2 t1 :=
  contentEq_of (fun k => (h.keys_iff k).symm) (fun c => (h.names_iff c).symm)
    (fun k c => (h.cell k c).symm)

theorem contentEq_trans {t1 t2 t3 : Table} (h1 : contentEq t1 t2) (h2 : contentEq t2 t3) :
    contentEq t1 t3 :=
  contentEq_of (fun k => (h1.keys_iff k).trans (h2.keys_iff k))
    (fun c => (h1.names_iff c).trans (h2.names_iff c))
    (fun k c => (h1.cell k c).trans (h2.cell k c))

theorem contentEq_merge_comm {a b : Table} (hd : DisjNames a b) :
    contentEq (a.merge b) (b.merge a) := by
  have hd' := disjNames_symm hd
  apply contentEq_of
  · intro k
    rw [mem_keys_merge, mem_keys_merge]
    exact or_comm
  · intro c
    rw [colNames_merge hd, colNames_merge hd']
    simp only [List.mem_append]
    exact or_comm
  · intro k c
    rw [cellVal_merge hd, cellVal_merge hd']
    by_cases hca : c ∈ colNames a
    · rw [if_pos hca, if_neg (hd c hca)]
    · rw [if_neg hca]
      by_cases hcb : c ∈ colNames b
      · rw [if_pos hcb]
      · rw [if_neg hcb, cellVal_of_not_mem_colNames hca, cellVal_of_not_mem_colNames hcb]

theorem disjNames_merge_left {a b c : Table} (hab : DisjNames a b) (hac : DisjNames a c)
    (hbc : DisjNames b c) : DisjNames (a.merge b) c := by
  intro n hn
  rw [colNames_merge hab] at hn
  rcases List.mem_append.1 hn with h | h
  · exact hac n h
  · exact hbc n h

theorem disjNames_merge_right {a b c : Table} (hab : DisjNames a b) (hac : DisjNames a c)
    (hbc : DisjNames b c) : DisjNames a (b.merge c) := by
  intro n hn hmem
  rw [colNames_merge hbc] at hmem
  rcases List.mem_append.1 hmem with h | h
  · exact hab n hn h
  · exact hac n hn h

theorem contentEq_merge_assoc {a b c : Table} (hab : DisjNames a b) (hac : DisjNames a c)
    (hbc : DisjNames b c) : contentEq ((a.merge b).merge c) (a.merge (b.merge c)) := by
  have h1 : DisjNames (a.merge b) c := disjNames_merge_left hab hac hbc
  have h2 : DisjNames a (b.merge c) := disjNames_merge_right hab hac hbc
  apply contentEq_of
  · intro k
    rw [mem_keys_merge, mem_keys_merge, mem_keys_merge, mem_keys_merge, or_assoc]
  · intro x
    rw [colNames_merge h1, colNames_merge h2, colNames_merge hab, colNames_merge hbc,
      List.append_assoc]
  · intro k x
    rw [cellVal_merge h1, cellVal_merge h2, cellVal_merge hab, cellVal_merge hbc]
    simp only [colNames_merge hab, List.mem_append]
    by_cases hxa : x ∈ colNames a <;> by_cases hxb : x ∈ colNames b <;> simp [hxa, hxb]

theorem contentEq_merge_congr_left {x y z : Table} (h : contentEq x y) (hxz : DisjNames x z)
    (hyz : DisjNames y z) : contentEq (x.merge z) (y.merge z) := by
  apply contentEq_of
  · intro k
    rw [mem_keys_merge, mem_keys_merge]
    exact or_congr_left (h.keys_iff k)
  · intro c
    rw [colNames_merge hxz, colNames_merge hyz]
    simp only [List.mem_append]
    exact or_congr_left (h.names_iff c)
  · intro k c
    rw [cellVal_merge hxz, cellVal_merge hyz]
    by_cases hcx : c ∈ colNames x
    · rw [if_pos hcx, if_pos ((h.names_iff c).1 hcx)]
      exact h.cell k c
    · rw [if_neg hcx, if_neg (fun hcy => hcx ((h.names_iff c).2 hcy))]

theorem contentEq_merge_congr_right {x y z : Table} (h : contentEq y z) (hxy : DisjNames x y)
    (hxz : DisjNames x z) : contentEq (x.merge y) (x.merge z) := by
  apply contentEq_of
  · intro k
    rw [mem_keys_merge, mem_keys_merge]
    exact or_congr_right (h.keys_iff k)
  · intro c
    rw [colNames_merge hxy, colNames_merge hxz]
    simp only [List.mem_append]
    exact or_congr_right (h.names_iff c)
  · intro k c
    rw [cellVal_merge hxy, cellVal_merge hxz]
    by_cases hcx : c ∈ colNames x
    · rw [if_pos hcx, if_pos hcx]
    · rw [if_neg hcx, if_neg hcx]
      exact h.cell k c

/-- Claim C8: the Outer-Join Merger is commutative in (key, column) → value content,
and merging three tables with pairwise disjoint column sets in any of the twelve
order/bracketing combinations yields the same content. -/
theorem c8_merge_comm_assoc (a b c : Table) (hab : DisjNames a b) (hac : DisjNames a c)
    (hbc : DisjNames b c) :
    contentEq (a.merge b) (b.merge a) ∧
      ∀ x ∈ mergeTrees a b c, ∀ y ∈ mergeTrees a b c, contentEq x y := by
  have hba := disjNames_symm hab
  have hca := disjNames_symm hac
  have hcb := disjNames_symm hbc
  have t1 : contentEq ((a.merge b).merge c) ((a.merge b).merge c) := contentEq_refl _
  have t2 : contentEq (a.merge (b.merge c)) ((a.merge b).merge c) :=
    contentEq_symm (contentEq_merge_assoc hab hac hbc)
  have step2 : contentEq (a.merge (c.merge b)) (a.merge (b.merge c)) :=
    contentEq_merge_congr_right (contentEq_merge_comm hcb)
      (disjNames_merge_right hac hab hcb) (disjNames_merge_right hab hac hbc)
  have t4 : contentEq (a.merge (c.merge b)) ((a.merge b).merge c) := contentEq_trans step2 t2
  have t3 : contentEq ((a.merge c).merge b) ((a.merge b).merge c) :=
    contentEq_trans (contentEq_merge_assoc hac hab hcb) t4
  have t5 : contentEq ((b.merge a).merge c) ((a.merge b).merge c) :=
    contentEq_merge_congr_left (contentEq_merge_comm hba)
      (disjNames_merge_left hba hbc hac) (disjNames_merge_left hab hac hbc)
  have t6 : contentEq (b.merge (a.merge c)) ((a.merge b).merge c) :=
    contentEq_trans (contentEq_merge_comm (disjNames_merge_right hba hbc hac)) t3
  have t7 : contentEq ((b.merge c).merge a) ((a.merge b).merge c) :=
    contentEq_trans (contentEq_merge_comm (disjNames_symm (disjNames_merge_right hab hac hbc))) t2
  have t9 : contentEq ((c.merge a).merge b) ((a.merge b).merge c) :=
    contentEq_trans
      (contentEq_merge_congr_left (contentEq_merge_comm hca)
        (disjNames_merge_left hca hcb hab) (disjNames_merge_left hac hab hcb)) t3
  have t8 : contentEq (b.merge (c.merge a)) ((a.merge b).merge c) :=
    contentEq_trans (contentEq_merge_comm (disjNames_merge_right hbc hba hca)) t9
  have t10 : contentEq (c.merge (a.merge b)) ((a.merge b).merge c) :=
    contentEq_merge_comm (disjNames_merge_right hca hcb hab)
  have t11 : contentEq ((c.merge b).merge a) ((a.merge b).merge c) :=
    contentEq_trans (contentEq_merge_comm (disjNames_merge_left hcb hca hba)) t4
  have t12 : contentEq (c.merge (b.merge a)) ((a.merge b).merge c) :=
    contentEq_trans (contentEq_merge_comm (disjNames_merge_right hcb hca hba)) t5
  have H : ∀ x ∈ mergeTrees a b c, contentEq x ((a.merge b).merge c) := by
    intro x hx
    simp only [mergeTrees, List.mem_cons, List.not_mem_nil, or_false] at hx
    rcases hx with rfl | rfl | rfl | rfl | rfl | rfl | rfl | rfl | rfl | rfl | rfl | rfl
    exacts [t1, t2, t3, t4, t5, t6, t7, t8, t9, t10, t11, t12]
  exact ⟨contentEq_merge_comm hab,
    fun x hx y hy => contentEq_trans (H x hx) (contentEq_symm (H y hy))⟩

theorem flatMap_congr_mem {α β : Type} {l : List α} {f g : α → List β}
    (h : ∀ t ∈ l, f t = g t) : l.flatMap f = l.flatMap g := by
  induction l with
  | nil => rfl
  | cons t ts ih =>
    simp only [List.flatMap_cons]
    rw [h t (List.mem_cons_self t ts), ih (fun t' ht' => h t' (List.mem_cons_of_mem _ ht'))]

theorem isMergeOf_colNames {u : Table} {l : List Table} (h : IsMergeOf u l) :
    colNames u = l.flatMap colNames := by
  unfold colNames
  rw [h.2.2, List.map_flatMap]
  apply flatMap_congr_mem
  intro t _
  rw [List.map_map]
  rfl

theorem isMergeOf_single {t : Table} (hwf : WF t) : IsMergeOf t [t] := by
  refine ⟨hwf.1, ?_, ?_⟩
  · intro k
    simp
  · simp only [List.flatMap_cons, List.flatMap_nil, List.append_nil]
    conv_lhs => rw [← List.map_id t.cols]
    apply List.map_congr_left
    intro nc hnc
    have hv : t.keys.map (fun k => lookupRow t.keys nc.2 k) = nc.2 :=
      map_lookupRow_self hwf.1 (hwf.2 nc hnc)
    simp [hv]

theorem isMergeOf_merge {u₁ u₂ : Table} {l₁ l₂ : List Table}
    (h₁ : IsMergeOf u₁ l₁) (h₂ : IsMergeOf u₂ l₂)
    (hd : ∀ n ∈ l₁.flatMap colNames, n ∉ l₂.flatMap colNames) :
    IsMergeOf (u₁.merge u₂) (l₁ ++ l₂) := by
  have hdu : DisjNames u₁ u₂ := by
    intro n hn
    rw [isMergeOf_colNames h₁] at hn
    rw [isMergeOf_colNames h₂]
    exact hd n hn
  refine ⟨nodup_sortDedup _, ?_, ?_⟩
  · intro k
    rw [mem_keys_merge, h₁.2.1 k, h₂.2.1 k]
    constructor
    · rintro (⟨t, ht, hk⟩ | ⟨t, ht, hk⟩)
      · exact ⟨t, List.mem_append_left _ ht, hk⟩
      · exact ⟨t, List.mem_append_right _ ht, hk⟩
    · rintro ⟨t, ht, hk⟩
      rcases List.mem_append.1 ht with h | h
      · exact Or.inl ⟨t, h, hk⟩
      · exact Or.inr ⟨t, h, hk⟩
  · rw [cols_merge hdu, List.flatMap_append]
    congr 1
    · rw [h₁.2.2, List.map_flatMap]
      apply flatMap_congr_mem
      intro t ht
      rw [List.map_map]
      apply List.map_congr_left
      intro nc _
      show (nc.1, List.map
            (fun k => lookupRow u₁.keys (List.map (fun k => lookupRow t.keys nc.2 k) u₁.keys) k)
            (u₁.merge u₂).keys)
          = (nc.1, List.map (fun k => lookupRow t.keys nc.2 k) (u₁.merge u₂).keys)
      refine congrArg (Prod.mk nc.1) ?_
      apply List.map_congr_left
      intro k _
      rw [lookupRow_map]
      by_cases hk : k ∈ u₁.keys
      · rw [if_pos hk]
      · rw [if_neg hk]
        have hkt : k ∉ t.keys := fun hmem => hk ((h₁.2.1 k).2 ⟨t, ht, hmem⟩)
        rw [lookupRow_of_not_mem hkt]
    · rw [h₂.2.2, List.map_flatMap]
      apply flatMap_congr_mem
      intro t ht
      rw [List.map_map]
      apply List.map_congr_left
      intro nc _
      show (nc.1, List.map
            (fun k => lookupRow u₂.keys (List.map (fun k => lookupRow t.keys nc.2 k) u₂.keys) k)
            (u₁.merge u₂).keys)
          = (nc.1, List.map (fun k => lookupRow t.keys nc.2 k) (u₁.merge u₂).keys)
      refine congrArg (Prod.mk nc.1) ?_
      apply List.map_congr_left
      intro k _
      rw [lookupRow_map]
      by_cases hk : k ∈ u₂.keys
      · rw [if_pos hk]
      · rw [if_neg hk]
        have hkt : k ∉ t.keys := fun hmem => hk ((h₂.2.1 k).2 ⟨t, ht, hmem⟩)
        rw [lookupRow_of_not_mem hkt]

theorem isMergeOf_foldl : ∀ (rest : List Table) (acc : Table) (l : List Table),
    IsMergeOf acc l → (∀ t ∈ rest, WF t) →
    ((l ++ rest).flatMap colNames).Nodup →
    IsMergeOf (rest.foldl Table.merge acc) (l ++ rest)
  | [], acc, l, hacc, _, _ => by simpa using hacc
  | t :: ts, acc, l, hacc, hwf, hnod => by
    have hd : ∀ n ∈ l.flatMap colNames, n ∉ [t].flatMap colNames := by
      intro n hn
      rw [List.flatMap_append, List.nodup_append] at hnod
      have hdisj := hnod.2.2 hn
      simp only [List.flatMap_cons, List.flatMap_nil, List.append_nil]
      intro hmem
      exact hdisj (by
        simp only [List.flatMap_cons]
        exact List.mem_append_left _ hmem)
    have hstep : IsMergeOf (acc.merge t) (l ++ [t]) :=
      isMergeOf_merge hacc (isMergeOf_single (hwf t (List.mem_cons_self t ts))) hd
    have hrec := isMergeOf_foldl ts (acc.merge t) (l ++ [t]) hstep
      (fun t' ht' => hwf t' (List.mem_cons_of_mem _ ht'))
      (by
        have he : (l ++ [t]) ++ ts = l ++ t :: ts := by simp
        rw [he]
        exact hnod)
    have he : (l ++ [t]) ++ ts = l ++ t :: ts := by simp
    rw [he] at hrec
    exact hrec

theorem seqMerge_isMergeOf {d : Table} {rest : List Table} (hwf : ∀ t ∈ d :: rest, WF t)
    (hnod : ((d :: rest).flatMap colNames).Nodup) :
    IsMergeOf (rest.foldl Table.merge d) (d :: rest) := by
  have h := isMergeOf_foldl rest d [d] (isMergeOf_single (hwf d (List.mem_cons_self d rest)))
    (fun t ht => hwf t (List.mem_cons_of_mem _ ht)) (by simpa using hnod)
  simpa using h

theorem pairupC_length : ∀ l : List Table, (pairupC l).1.length = (l.length + 1) / 2
  | [] => by norm_num [pairupC]
  | [_] => by norm_num [pairupC]
  | one :: two :: rest => by
    simp only [pairupC, List.length_cons]
    rw [pairupC_length rest]
    omega

theorem pairBlocks_flatten : ∀ blocks : List (List Table),
    (pairBlocks blocks).flatten = blocks.flatten
  | [] => rfl
  | [_] => rfl
  | b₁ :: b₂ :: rest => by
    simp only [pairBlocks, List.flatten_cons]
    rw [pairBlocks_flatten rest, List.append_assoc]

theorem pairup_forall₂ : ∀ (ws : List Table) (blocks : List (List Table)),
    List.Forall₂ IsMergeOf ws blocks →
    (blocks.flatten.flatMap colNames).Nodup →
    List.Forall₂ IsMergeOf (pairupC ws).1 (pairBlocks blocks)
  | [], blocks, h, _ => by
    cases h
    exact List.Forall₂.nil
  | [one], blocks, h, _ => by
    rcases h with _ | ⟨h1, h2⟩
    cases h2
    exact List.Forall₂.cons h1 List.Forall₂.nil
  | one :: two :: rest, blocks, h, hnod => by
    rcases h with _ | ⟨h1, htail⟩
    rcases htail with _ | ⟨h2, hrest⟩
    rename_i b₁ b₂ brest
    have hn : ((b₁ :: b₂ :: brest).flatten.flatMap colNames).Nodup := hnod
    rw [List.flatten_cons, List.flatten_cons, List.flatMap_append, List.flatMap_append,
      List.nodup_append] at hn
    have hn2 := hn.2.1
    rw [List.nodup_append] at hn2
    have hd : ∀ n ∈ b₁.flatMap colNames, n ∉ b₂.flatMap colNames := by
      intro n hmem hmem2
      exact hn.2.2 hmem (List.mem_append_left _ hmem2)
    refine List.Forall₂.cons (isMergeOf_merge h1 h2 hd) (pairup_forall₂ rest brest hrest hn2.2.1)

theorem rounds_isMergeOf : ∀ (fuel : Nat) (ws : List Table) (blocks : List (List Table)),
    ws.length ≤ fuel → 1 ≤ ws.length →
    List.Forall₂ IsMergeOf ws blocks →
    (blocks.flatten.flatMap colNames).Nodup →
    ∃ u, (roundsCFuel fuel ws).1 = [u] ∧ IsMergeOf u blocks.flatten
  | 0, ws, blocks, hle, hge, _, _ => by omega
  | fuel + 1, ws, blocks, hle, hge, hf, hnod => by
    by_cases h1 : ws.length ≤ 1
    · have hlen : ws.length = 1 := le_antisymm h1 hge
      rcases List.length_eq_one.1 hlen with ⟨u, rfl⟩
      rcases hf with _ | ⟨hu, htail⟩
      cases htail
      exact ⟨u, by simp [roundsCFuel], by simpa using hu⟩
    · have hlen2 := pairupC_length ws
      rcases rounds_isMergeOf fuel (pairupC ws).1 (pairBlocks blocks)
          (by omega) (by omega)
          (pairup_forall₂ ws blocks hf hnod)
          (by rw [pairBlocks_flatten]; exact hnod) with ⟨u, hu1, hu2⟩
      rw [pairBlocks_flatten] at hu2
      refine ⟨u, ?_, hu2⟩
      simp only [roundsCFuel, if_neg h1]
      exact hu1

theorem blocksSingleton_forall₂ : ∀ l : List Table, (∀ t ∈ l, WF t) →
    List.Forall₂ IsMergeOf l (l.map (fun t => [t]))
  | [], _ => List.Forall₂.nil
  | t :: ts, hwf =>
    List.Forall₂.cons (isMergeOf_single (hwf t (List.mem_cons_self t ts)))
      (blocksSingleton_forall₂ ts (fun t' ht' => hwf t' (List.mem_cons_of_mem _ ht')))

theorem flatten_map_singleton : ∀ l : List Table, (l.map (fun t => [t])).flatten = l
  | [] => rfl
  | t :: ts => by
    simp only [List.map_cons, List.flatten_cons, List.singleton_append]
    rw [flatten_map_singleton ts]

theorem roundsRes_isMergeOf {d : Table} {rest : List Table} (hwf : ∀ t ∈ d :: rest, WF t)
    (hnod : ((d :: rest).flatMap colNames).Nodup) :
    ∃ u, roundsRes (d :: rest) = [u] ∧ IsMergeOf u (d :: rest) := by
  have h := rounds_isMergeOf (d :: rest).length (d :: rest) ((d :: rest).map (fun t => [t]))
    le_rfl (by simp) (blocksSingleton_forall₂ _ hwf)
    (by rw [flatten_map_singleton]; exact hnod)
  rw [flatten_map_singleton] at h
  exact h

theorem isMergeOf_keys_length {u v : Table} {l : List Table} (hu : IsMergeOf u l)
    (hv : IsMergeOf v l) : u.keys.length = v.keys.length :=
  ((List.perm_ext_iff_of_nodup hu.1 hv.1).2
    (fun k => (hu.2.1 k).trans (hv.2.1 k).symm)).length_eq

theorem isMergeOf_cols_length {u : Table} {l : List Table} (h : IsMergeOf u l) :
    u.cols.length = (l.flatMap colNames).length := by
  have hc := isMergeOf_colNames h
  have h1 : (colNames u).length = u.cols.length := by
    unfold colNames
    simp
  rw [← h1, hc]

theorem relabelSorted_shape (t : Table) : (relabelSorted t).shape = t.shape := by
  unfold Table.shape relabelSorted sortNames colNames
  simp [List.length_zip, List.length_insertionSort]

theorem join_rec_eq_of_roundsRes {d : Table} {rest : List Table} {u : Table}
    (hu : roundsRes (d :: rest) = [u]) :
    join_dataframes_recursively (d :: rest)
      = if (relabelSorted u).shape = (d.keys.length, (d :: rest).length)
        then .ok (relabelSorted u)
        else .error (.shapeMismatch (relabelSorted u).shape (d.keys.length, (d :: rest).length)) := by
  simp only [join_dataframes_recursively]
  rw [hu]

theorem join_seq_eq (d : Table) (rest : List Table) :
    join_dataframes_sequentially (d :: rest)
      = if (rest.foldl Table.merge d).shape = (d.keys.length, (d :: rest).length)
        then .ok (rest.foldl Table.merge d)
        else .error (.shapeMismatch (rest.foldl Table.merge d).shape
          (d.keys.length, (d :: rest).length)) := rfl

theorem keys_length_lt_of_absent {d : Table} {rest : List Table} {u : Table}
    (hu : IsMergeOf u (d :: rest)) (hdnd : d.keys.Nodup)
    (habs : ∃ t ∈ rest, ∃ k ∈ t.keys, k ∉ d.keys) :
    d.keys.length < u.keys.length := by
  rcases habs with ⟨t, ht, k₀, hk₀, hk₀d⟩
  have hsub : d.keys.toFinset ⊆ u.keys.toFinset := by
    intro x hx
    rw [List.mem_toFinset] at hx ⊢
    exact (hu.2.1 x).2 ⟨d, List.mem_cons_self d rest, hx⟩
  have hk₀u : k₀ ∈ u.keys.toFinset := by
    rw [List.mem_toFinset]
    exact (hu.2.1 k₀).2 ⟨t, List.mem_cons_of_mem _ ht, hk₀⟩
  have hle := Finset.card_le_card hsub
  rcases lt_or_eq_of_le hle with hlt | heq
  · rwa [List.toFinset_card_of_nodup hdnd, List.toFinset_card_of_nodup hu.1] at hlt
  · exfalso
    have heqs : d.keys.toFinset = u.keys.toFinset :=
      Finset.eq_of_subset_of_card_le hsub (le_of_eq heq.symm)
    exact hk₀d (List.mem_toFinset.1 (heqs ▸ hk₀u))

/-- Counterexample for C5: the first table `tG12` contains the key "g2", absent from
the second table `tG1`, yet both reducers return a merged table (with a missing
cell) instead of raising a ShapeMismatch error — the shape check only compares
against the FIRST table's row count, which the union still matches. -/
theorem c5_counterexample :
    ("g2" ∈ tG12.keys ∧ "g2" ∉ tG1.keys) ∧
      join_dataframes_sequentially [tG12, tG1]
        = .ok ⟨["g1", "g2"], [("s1", [some 1, some 2]), ("s2", [some 5, none])]⟩ ∧
      join_dataframes_recursively [tG12, tG1]
        = .ok ⟨["g1", "g2"], [("s1", [some 1, some 2]), ("s2", [some 5, none])]⟩ :=
  ⟨by decide, rfl, rfl⟩

/-- Claim C5, amended: for well-formed inputs with globally distinct column names,
each reducer raises ShapeMismatch — a RuntimeError carrying both the actual and
the expected shape — exactly when the merged table's shape differs from (row
count of the first input, number of inputs); in particular it raises whenever
some input table contains a key absent from the FIRST input table (not from an
arbitrary one: keys absent from a later table but present in the first produce
missing cells without any error). -/
theorem c5_amended (d : Table) (rest : List Table) (hwf : ∀ t ∈ d :: rest, WF t)
    (hnod : ((d :: rest).flatMap colNames).Nodup) :
    (join_dataframes_sequentially (d :: rest)
        = .error (.shapeMismatch (rest.foldl Table.merge d).shape
            (d.keys.length, (d :: rest).length))
      ↔ (rest.foldl Table.merge d).shape ≠ (d.keys.length, (d :: rest).length)) ∧
      (join_dataframes_recursively (d :: rest)
          = .error (.shapeMismatch (rest.foldl Table.merge d).shape
              (d.keys.length, (d :: rest).length))
        ↔ (rest.foldl Table.merge d).shape ≠ (d.keys.length, (d :: rest).length)) ∧
      ((∃ t ∈ rest, ∃ k ∈ t.keys, k ∉ d.keys)
        → (rest.foldl Table.merge d).shape ≠ (d.keys.length, (d :: rest).length)) := by
  have hm := seqMerge_isMergeOf hwf hnod
  obtain ⟨u, hu, humrg⟩ := roundsRes_isMergeOf hwf hnod
  have hus : (relabelSorted u).shape = (rest.foldl Table.merge d).shape := by
    rw [relabelSorted_shape]
    unfold Table.shape
    rw [isMergeOf_keys_length humrg hm, isMergeOf_cols_length humrg,
      ← isMergeOf_cols_length hm]
  refine ⟨?_, ?_, ?_⟩
  · rw [join_seq_eq]
    by_cases h : (rest.foldl Table.merge d).shape = (d.keys.length, (d :: rest).length)
    · simp [h]
    · simp [h]
  · rw [join_rec_eq_of_roundsRes hu, hus]
    by_cases h : (rest.foldl Table.merge d).shape = (d.keys.length, (d :: rest).length)
    · simp [h]
    · simp [h]
  · intro habs
    have hlt := keys_length_lt_of_absent hm (hwf d (List.mem_cons_self d rest)).1 habs
    intro he
    have := congrArg Prod.fst he
    unfold Table.shape at this
    simp only [] at this
    omega

/-- Witness for C5's amended theorem: the two concrete tables of the
counterexample, in the order (subset-keys table first) that makes the
absent-key antecedent non-vacuous. -/
theorem c5_amended_witness :
    (∀ t ∈ tG1 :: [tG12], WF t) ∧ ((tG1 :: [tG12]).flatMap colNames).Nodup ∧
      (∃ t ∈ [tG12], ∃ k ∈ t.keys, k ∉ tG1.keys) ∧
      ((∃ t ∈ [tG12], ∃ k ∈ t.keys, k ∉ tG1.keys)
        → ([tG12].foldl Table.merge tG1).shape ≠ (tG1.keys.length, (tG1 :: [tG12]).length)) :=
  ⟨by decide, by decide, by decide, (c5_amended tG1 [tG12] (by decide) (by decide)).2.2⟩

/-- Claim C9: the pairing rounds (with their odd-leftover carry-forward) drop no input
and duplicate none: the single table they converge to — and the table the
recursive reducer returns after the relabelling step, whenever it returns one —
carries exactly one data column per input column, in input order, each equal to
that input's values reindexed onto the combined key list. -/
theorem c9_no_input_dropped (d : Table) (rest : List Table) (hwf : ∀ t ∈ d :: rest, WF t)
    (hnod : ((d :: rest).flatMap colNames).Nodup) :
    ∃ u, roundsRes (d :: rest) = [u] ∧
      (relabelSorted u).cols.map Prod.snd
        = (d :: rest).flatMap
            (fun t => t.cols.map (fun nc => u.keys.map (fun k => lookupRow t.keys nc.2 k))) ∧
      ∀ t', join_dataframes_recursively (d :: rest) = .ok t'
        → t'.cols.map Prod.snd
            = (d :: rest).flatMap
                (fun t => t.cols.map (fun nc => u.keys.map (fun k => lookupRow t.keys nc.2 k))) := by
  obtain ⟨u, hu, humrg⟩ := roundsRes_isMergeOf hwf hnod
  have hdata : (relabelSorted u).cols.map Prod.snd
      = (d :: rest).flatMap
          (fun t => t.cols.map (fun nc => u.keys.map (fun k => lookupRow t.keys nc.2 k))) := by
    unfold relabelSorted
    rw [List.map_snd_zip]
    · rw [humrg.2.2, List.map_flatMap]
      apply flatMap_congr_mem
      intro t _
      rw [List.map_map]
      rfl
    · unfold sortNames colNames
      simp [List.length_insertionSort]
  refine ⟨u, hu, hdata, ?_⟩
  intro t' ht'
  rw [join_rec_eq_of_roundsRes hu] at ht'
  by_cases hsh : (relabelSorted u).shape = (d.keys.length, (d :: rest).length)
  · rw [if_pos hsh] at ht'
    cases ht'
    exact hdata
  · rw [if_neg hsh] at ht'
    cases ht'

/-- Witness for C9: three single-gene tables with distinct sample names. -/
theorem c9_witness :
    (∀ t ∈ tA :: [tB, tC], WF t) ∧ ((tA :: [tB, tC]).flatMap colNames).Nodup ∧
      ∃ u, roundsRes (tA :: [tB, tC]) = [u] ∧
        (relabelSorted u).cols.map Prod.snd
          = (tA :: [tB, tC]).flatMap
              (fun t => t.cols.map (fun nc => u.keys.map (fun k => lookupRow t.keys nc.2 k))) ∧
        ∀ t', join_dataframes_recursively (tA :: [tB, tC]) = .ok t'
          → t'.cols.map Prod.snd
              = (tA :: [tB, tC]).flatMap
                  (fun t => t.cols.map (fun nc => u.keys.map (fun k => lookupRow t.keys nc.2 k))) :=
  ⟨by decide, by decide, c9_no_input_dropped tA [tB, tC] (by decide) (by decide)⟩

theorem pairupC_updates : ∀ l : List Table, (pairupC l).2.2 = (l.length + 1) / 2
  | [] => by norm_num [pairupC]
  | [_] => by norm_num [pairupC]
  | one :: two :: rest => by
    simp only [pairupC, List.length_cons]
    rw [pairupC_updates rest]
    omega

theorem roundsCFuel_updates : ∀ (fuel : Nat) (dfs : List Table), dfs.length ≤ fuel →
    (roundsCFuel fuel dfs).2.2 = numIterationsNeededFuel fuel dfs.length
  | 0, dfs, _ => by simp [roundsCFuel, numIterationsNeededFuel]
  | fuel + 1, dfs, hle => by
    by_cases h1 : dfs.length ≤ 1
    · simp [roundsCFuel, numIterationsNeededFuel, h1]
    · have hl := pairupC_length dfs
      have hup := pairupC_updates dfs
      simp only [roundsCFuel, numIterationsNeededFuel, if_neg h1]
      rw [roundsCFuel_updates fuel (pairupC dfs).1 (by omega), hl, hup]

theorem rounds_length_one : ∀ (fuel : Nat) (dfs : List Table), 1 ≤ dfs.length →
    dfs.length ≤ fuel → (roundsCFuel fuel dfs).1.length = 1
  | 0, dfs, hge, hle => by omega
  | fuel + 1, dfs, hge, hle => by
    by_cases h1 : dfs.length ≤ 1
    · simp only [roundsCFuel, if_pos h1]
      omega
    · have hl := pairupC_length dfs
      simp only [roundsCFuel, if_neg h1]
      exact rounds_length_one fuel (pairupC dfs).1 (by omega) (by omega)

/-- Counterexample for C7: on three inputs the precomputed count is 3 (it counts the
odd leftover's `pbar.update()` as well) while only 2 merge operations run, and
the reducer nevertheless completes without any "Math was incorrect!" error — no
comparison of the precomputed count against executed work exists in the code. -/
theorem c7_counterexample :
    numIterationsNeeded ([tA, tB, tC] : List Table).length = 3 ∧
      (roundsC [tA, tB, tC]).2.1 = 2 ∧
      numIterationsNeeded ([tA, tB, tC] : List Table).length ≠ (roundsC [tA, tB, tC]).2.1 ∧
      join_dataframes_recursively [tA, tB, tC]
        = .ok ⟨["g"], [("a", [some 2]), ("b", [some 1]), ("c", [some 3])]⟩ :=
  ⟨rfl, rfl, by decide, rfl⟩

/-- Claim C7, amended: the precomputed sum over rounds of ceil(n/2) equals the number
of `pbar.update()` calls (merges plus odd carry-forward appends), not the number
of merges; and the "Math was incorrect!" branch — which tests only that the
working list converged to exactly one table — is unreachable: the recursive
reducer never raises that error. -/
theorem c7_amended (dfs : List Table) :
    numIterationsNeeded dfs.length = (roundsC dfs).2.2 ∧
      join_dataframes_recursively dfs ≠ .error .mathIncorrect := by
  constructor
  · exact (roundsCFuel_updates dfs.length dfs le_rfl).symm
  · cases dfs with
    | nil => simp [join_dataframes_recursively]
    | cons d rest =>
      have hlen : (roundsCFuel (d :: rest).length (d :: rest)).1.length = 1 :=
        rounds_length_one (d :: rest).length (d :: rest) (by simp) le_rfl
      obtain ⟨u, hu⟩ := List.length_eq_one.1 hlen
      have hu' : roundsRes (d :: rest) = [u] := hu
      rw [join_rec_eq_of_roundsRes hu']
      by_cases hsh : (relabelSorted u).shape = (d.keys.length, (d :: rest).length)
      · rw [if_pos hsh]
        simp
      · rw [if_neg hsh]
        simp

theorem innerLoopS_fst : ∀ l acc : List Table, (innerLoopS l acc).1 = []
  | [], _ => rfl
  | [_], _ => rfl
  | one :: two :: rest, acc => innerLoopS_fst rest (acc ++ [one.merge two])

theorem innerLoopS_snd : ∀ l acc : List Table, (innerLoopS l acc).2 = acc ++ (pairupC l).1
  | [], acc => by simp [innerLoopS, pairupC]
  | [one], acc => by simp [innerLoopS, pairupC]
  | one :: two :: rest, acc => by
    simp only [innerLoopS, pairupC]
    rw [innerLoopS_snd rest (acc ++ [one.merge two])]
    simp

/-- Counterexample for C4: after `join_dataframes_recursively` runs on a two-element
list, the caller's list object is empty — the reducer consumed it with
`dfs.pop(0)` — so the caller's input list is NOT unchanged. -/
theorem c4_counterexample :
    callerListAfterRecursive [tB, tA] = [] ∧ callerListAfterRecursive [tB, tA] ≠ [tB, tA] :=
  ⟨rfl, by decide⟩

/-- Claim C4, amended: the merge steps themselves never mutate their operands, but
the recursive reducer destructively consumes the caller's list: whenever the
list holds at least two tables it is empty after the call (and on a one-table
list the reducer returns that very table with its columns reassigned in place
rather than a fresh copy). -/
theorem c4_amended (dfs : List Table) (h : 2 ≤ dfs.length) :
    callerListAfterRecursive dfs = [] := by
  cases dfs with
  | nil => simp at h
  | cons one rest1 =>
    cases rest1 with
    | nil => simp at h
    | cons two rest => exact innerLoopS_fst (one :: two :: rest) []

/-- Witness for C4's amended theorem. -/
theorem c4_amended_witness :
    2 ≤ ([tB, tA] : List Table).length ∧ callerListAfterRecursive [tB, tA] = [] :=
  ⟨by decide, c4_amended [tB, tA] (by decide)⟩

/-- Claim C10: on an empty input list both reducers raise the input error immediately. -/
theorem c10_empty_input :
    join_dataframes_sequentially [] = .error .inputEmpty ∧
      join_dataframes_recursively [] = .error .inputEmpty :=
  ⟨rfl, rfl⟩

/-- Claim C1: on two single-gene tables with the identical key set {"g"} but sample
names given in non-sorted order ("b" then "a"), the sequential reducer returns
value 1 under column "b" and 2 under "a", while the recursive reducer — whose
final `result.columns = sorted(result.columns)` relabels the columns in place —
returns 1 under "a" and 2 under "b": the two outputs differ in
(key, column) → value content. -/
theorem c1_content_mismatch :
    (∀ k, k ∈ tB.keys ↔ k ∈ tA.keys) ∧
      join_dataframes_sequentially [tB, tA]
        = .ok ⟨["g"], [("b", [some 1]), ("a", [some 2])]⟩ ∧
      join_dataframes_recursively [tB, tA]
        = .ok ⟨["g"], [("a", [some 1]), ("b", [some 2])]⟩ ∧
      ¬ contentEq (⟨["g"], [("b", [some 1]), ("a", [some 2])]⟩ : Table)
          ⟨["g"], [("a", [some 1]), ("b", [some 2])]⟩ :=
  ⟨fun _ => Iff.rfl, rfl, rfl, by decide⟩

/-- Claim C2: `result.columns = sorted(result.columns)` renames columns in place
instead of moving them: sample "a" loaded the value 2, yet with input order
[tB, tA] the recursive reducer's column "a" holds tB's value 1, and reversing
the input order changes the resulting (column name → values) layout. -/
theorem c2_sort_relabels_in_place :
    join_dataframes_recursively [tB, tA]
        = .ok ⟨["g"], [("a", [some 1]), ("b", [some 2])]⟩ ∧
      join_dataframes_recursively [tA, tB]
        = .ok ⟨["g"], [("a", [some 2]), ("b", [some 1])]⟩ ∧
      cellVal tA "g" "a" = some 2 ∧
      cellVal (⟨["g"], [("a", [some 1]), ("b", [some 2])]⟩ : Table) "g" "a" = some 1 :=
  ⟨rfl, rfl, rfl, rfl⟩

/-- Claim C3: on two tables with identical key sets and identical values but unsorted
sample names, the two reducers' outputs have identical (key, column) → value
content, yet `concordance_test` — which uses column-order-sensitive
`assert_frame_equal` — reports a mismatch. -/
theorem c3_verifier_flags_equal_content :
    join_dataframes_sequentially [tB7, tA7]
        = .ok ⟨["g"], [("b", [some 7]), ("a", [some 7])]⟩ ∧
      join_dataframes_recursively [tB7, tA7]
        = .ok ⟨["g"], [("a", [some 7]), ("b", [some 7])]⟩ ∧
      contentEq (⟨["g"], [("b", [some 7]), ("a", [some 7])]⟩ : Table)
        ⟨["g"], [("a", [some 7]), ("b", [some 7])]⟩ ∧
      concordance_test [tB7, tA7] = .error .assertionFailed :=
  ⟨rfl, rfl, by decide, rfl⟩

/-- Counterexample for C6: two tables sharing the column label "s" merge into a
table whose columns are the pandas-suffixed "s_x" and "s_y", not the union of
the two column sets. -/
theorem c6_counterexample :
    colNames (tS1.merge tS2) = ["s_x", "s_y"] ∧
      ¬ ∀ c, c ∈ colNames (tS1.merge tS2) ↔ (c ∈ colNames tS1 ∨ c ∈ colNames tS2) := by
  refine ⟨rfl, ?_⟩
  intro h
  have h2 := (h "s").2 (Or.inl (by decide))
  revert h2
  decide

/-- Claim C6, amended: for two KeyedTables with DISJOINT column sets, the Outer-Join
Merger produces the union of the key sets, the union of the column sets, and at
each (key, column) the originating table's value when the pair exists there and
a missing value otherwise. -/
theorem c6_amended (a b : Table) (hd : DisjNames a b) :
    (∀ k, k ∈ (a.merge b).keys ↔ (k ∈ a.keys ∨ k ∈ b.keys)) ∧
      (∀ c, c ∈ colNames (a.merge b) ↔ (c ∈ colNames a ∨ c ∈ colNames b)) ∧
      (∀ k c, c ∈ colNames a
        → cellVal (a.merge b) k c = if k ∈ a.keys then cellVal a k c else none) ∧
      (∀ k c, c ∈ colNames b
        → cellVal (a.merge b) k c = if k ∈ b.keys then cellVal b k c else none) := by
  refine ⟨fun k => mem_keys_merge, ?_, ?_, ?_⟩
  · intro c
    rw [colNames_merge hd, List.mem_append]
  · intro k c hca
    rw [cellVal_merge hd, if_pos hca]
    by_cases hk : k ∈ a.keys
    · rw [if_pos hk]
    · rw [if_neg hk, cellVal_of_not_mem_keys hk]
  · intro k c hcb
    have hca : c ∉ colNames a := fun hca => hd c hca hcb
    rw [cellVal_merge hd, if_neg hca]
    by_cases hk : k ∈ b.keys
    · rw [if_pos hk]
    · rw [if_neg hk, cellVal_of_not_mem_keys hk]

/-- Witness for C6's amended theorem: the specification's scenario — genes
{g1,g2} merged with genes {g2,g3} give three rows with the cross cells missing. -/
theorem c6_amended_witness :
    DisjNames wA wB ∧
      wA.merge wB
        = ⟨["g1", "g2", "g3"], [("a", [some 1, some 2, none]), ("b", [none, some 3, some 4])]⟩ ∧
      (∀ k, k ∈ (wA.merge wB).keys ↔ (k ∈ wA.keys ∨ k ∈ wB.keys)) ∧
      (∀ k c, c ∈ colNames wA
        → cellVal (wA.merge wB) k c = if k ∈ wA.keys then cellVal wA k c else none) :=
  ⟨by decide, rfl, (c6_amended wA wB (by decide)).1, (c6_amended wA wB (by decide)).2.2.1⟩

/-- Witness for C8: the three pairwise-column-disjoint tables of the
specification's outer-join scenarios. -/
theorem c8_witness :
    (DisjNames wA wB ∧ DisjNames wA wC ∧ DisjNames wB wC) ∧
      contentEq (wA.merge wB) (wB.merge wA) ∧
      ∀ x ∈ mergeTrees wA wB wC, ∀ y ∈ mergeTrees wA wB wC, contentEq x y :=
  ⟨⟨by decide, by decide, by decide⟩,
    (c8_merge_comm_assoc wA wB wC (by decide) (by decide) (by decide)).1,
    (c8_merge_comm_assoc wA wB wC (by decide) (by decide) (by decide)).2⟩

end MergeCounts
